import Mathlib

/-!
Verification of whimsky (a Bluesky RSS/news posting bot) against its
natural-language specification.  We shallowly embed the relevant Rust code:
the SQLite-backed `posted_urls` ledger (`src/database.rs`), the RSS fetcher
(`src/rss.rs`), the timed-API news fetcher (`src/fetcher.rs`), and the
per-item publish loop and CLI database commands (`src/commands/`).

Timestamps (`chrono::DateTime<Utc>`) are modelled as `Int`, durations as
`Int`, URLs as `String`.  The ledger (the `posted_urls` table) is a
`List String` in insertion order (ROWID ascending): the head is the oldest
entry and the last element the most recently inserted.
-/

namespace Whimsky

/-! ## Database (`src/database.rs`) -/

/-- The `posted_urls` table, rows in insertion (ROWID) order. -/
abbrev Ledger := List String

/-- `Database::has_posted_url`: membership test on the `posted_urls` table. -/
def hasPostedUrl (ledger : Ledger) (url : String) : Bool :=
  ledger.contains url

/-- Modelled from the spec: the `posted_urls` migration (which is not part of
the embedded sources) declares `url` as a unique key, so a plain
`INSERT INTO posted_urls (url) VALUES (?)` fails on a duplicate.
`Database::add_posted_url` propagates that failure (`?`). -/
def addPostedUrl (ledger : Ledger) (url : String) : Except Unit Ledger :=
  if hasPostedUrl ledger url then .error () else .ok (ledger ++ [url])

/-- `Database::remove_old_stored_posts`, generalised over the hard-coded
limit: `DELETE FROM posted_urls WHERE ROWID IN (SELECT ROWID FROM
posted_urls ORDER BY ROWID DESC LIMIT -1 OFFSET n)` deletes every row except
the `n` most recently inserted ones.  On the insertion-ordered list this
keeps the final `n` elements. -/
def trimLedger (n : Nat) (ledger : Ledger) : Ledger :=
  ledger.drop (ledger.length - n)

/-- `Database::remove_old_stored_posts` as written: the limit is 25000. -/
def removeOldStoredPosts (ledger : Ledger) : Ledger :=
  trimLedger 25000 ledger

/-- `Database::get_all_post_urls`: `SELECT url FROM posted_urls` yields one
`Option<String>` per row (the column is nullable to sqlx), and
`collect::<Option<Vec<String>>>()` short-circuits to `None` at the first
`NULL`, otherwise gathers all values in order. -/
def getAllPostUrls : List (Option String) → Option (List String)
  | [] => some []
  | none :: _ => none
  | some s :: rest => (getAllPostUrls rest).map (s :: ·)

/-- `ExportPostsCommand::run` after the database read: `bail!` on `None`,
otherwise print the urls joined by commas. -/
def exportPostsOutput (rows : List (Option String)) : Except String String :=
  match getAllPostUrls rows with
  | none => .error "There are no posts saved in the database"
  | some posts => .ok (String.intercalate "," posts)

/-- `InsertPostsCommand::run`, one url: insert only when
`has_posted_url` is false, otherwise leave the ledger unchanged. -/
def insertPostsStep (ledger : Ledger) (url : String) : Except Unit Ledger :=
  if hasPostedUrl ledger url then .ok ledger
  else addPostedUrl ledger url

/-! ## Post assembly (`src/commands/start.rs`) -/

/-- `created_at: post.published.unwrap_or(DateTime::default())`.
`DateTime::<Utc>::default()` is the Unix epoch, modelled as `0`. -/
def postCreatedAt (published : Option Int) : Int :=
  published.getD 0

/-! ## RSS source (`src/rss.rs`) -/

/-- A `feed_rs::model::Link` (only `href` is ever read). -/
structure Link where
  href : String
deriving DecidableEq, Repr

/-- A `feed_rs::model::Text` (only `content` is ever read). -/
structure FeedText where
  content : String
deriving DecidableEq, Repr

/-- The fields of a `feed_rs::model::Entry` that the program reads. -/
structure Entry where
  title : Option FeedText
  published : Option Int
  summary : Option FeedText
  links : List Link
deriving DecidableEq, Repr

/-- The mutable state of an `RssHandler`. -/
structure RssState where
  filterDate : Int
  feedBackdateDuration : Int
deriving DecidableEq, Repr

/-- The per-entry filter of `RssHandler::fetch_unposted`: keep an entry when
it has a publish date strictly after the filter date, has at least one link,
and its first link's href is not yet in the `posted_urls` table. -/
def rssKeep (filterDate : Int) (ledger : Ledger) (item : Entry) : Bool :=
  match item.published with
  | none => false
  | some pubDate =>
    if pubDate ≤ filterDate then false
    else
      match item.links.head? with
      | none => false
      | some link => !hasPostedUrl ledger link.href

/-- `RssHandler::fetch_unposted`: a failed HTTP request or feed parse is
propagated with `?` before any state change; on success the surviving
entries are returned and `filter_date` is reset to `now` minus the backdate
duration. -/
def rssFetchUnposted (st : RssState) (ledger : Ledger)
    (fetched : Except Unit (List Entry)) (now : Int) :
    RssState × Except Unit (List Entry) :=
  match fetched with
  | .error e => (st, .error e)
  | .ok entries =>
    ({ st with filterDate := now - st.feedBackdateDuration },
     .ok (entries.filter (rssKeep st.filterDate ledger)))

/-! ## Timed-API source (`src/fetcher.rs`) -/

/-- A `NikkiNewsDataInner` item of the news API response. -/
structure NikkiNewsDataInner where
  id : Nat
  title : String
  «section» : Nat
  publishTime : Int
  cover : String
  abstract : String
deriving DecidableEq, Repr

/-- A `NikkiNewsPost` produced by the fetcher. -/
structure NikkiNewsPost where
  url : String
  title : String
  publishTime : Int
  cover : String
  abstract : String
deriving DecidableEq, Repr

/-- The mutable state of a `NikkiNewsFetcher`. -/
structure NikkiState where
  filterDate : Int
  backdateDuration : Int
  locale : String
deriving DecidableEq, Repr

/-- Helper for `dedupByKey`: `prev` is the most recently retained element;
an element whose id matches `prev`'s is dropped. -/
def dedupByKeyCore (prev : NikkiNewsDataInner) :
    List NikkiNewsDataInner → List NikkiNewsDataInner
  | [] => []
  | b :: rest =>
    if prev.id = b.id then dedupByKeyCore prev rest
    else b :: dedupByKeyCore b rest

/-- `Vec::dedup_by_key(|k| k.id)`: removes all but the first of CONSECUTIVE
elements with the same key (each element is compared against the most
recently retained one). -/
def dedupByKey : List NikkiNewsDataInner → List NikkiNewsDataInner
  | [] => []
  | a :: rest => a :: dedupByKeyCore a rest

/-- Stable insertion into a list that is already sorted ascending by id. -/
def insertById (a : NikkiNewsDataInner) :
    List NikkiNewsDataInner → List NikkiNewsDataInner
  | [] => [a]
  | b :: l => if a.id ≤ b.id then a :: b :: l else b :: insertById a l

/-- `Vec::sort_by_key(|k| k.id)`: a stable ascending sort by id (stable
sorts with the same key agree on every input, so insertion sort is an exact
model). -/
def sortById : List NikkiNewsDataInner → List NikkiNewsDataInner
  | [] => []
  | a :: l => insertById a (sortById l)

/-- The link constructed for an item:
`https://infinitynikki.infoldgames.com/{locale}/news/{id}`. -/
def makeNewsLink (locale : String) (id : Nat) : String :=
  "https://infinitynikki.infoldgames.com/" ++ locale ++ "/news/" ++ toString id

/-- The selection loop of `NikkiNewsFetcher::fetch_unposted`: drop items not
strictly after the filter date, drop items whose constructed link is already
in the `posted_urls` table, and map the survivors to posts (trimming title
and abstract). -/
def nikkiSelect (locale : String) (filterDate : Int) (ledger : Ledger) :
    List NikkiNewsDataInner → List NikkiNewsPost
  | [] => []
  | item :: rest =>
    if item.publishTime ≤ filterDate then nikkiSelect locale filterDate ledger rest
    else
      let link := makeNewsLink locale item.id
      if hasPostedUrl ledger link then nikkiSelect locale filterDate ledger rest
      else
        { url := link
          title := item.title.trim
          publishTime := item.publishTime
          cover := item.cover
          abstract := item.abstract.trim } :: nikkiSelect locale filterDate ledger rest

/-- `NikkiNewsFetcher::fetch_unposted`: a failed HTTP request or JSON parse
is propagated with `?` before any state change; on success the item list is
run through `dedup_by_key` by id, a stable ascending sort by id, and a
reverse, then filtered and mapped by the selection loop, and `filter_date`
is reset to `now` minus the backdate duration. -/
def nikkiFetchUnposted (st : NikkiState) (ledger : Ledger)
    (fetched : Except Unit (List NikkiNewsDataInner)) (now : Int) :
    NikkiState × Except Unit (List NikkiNewsPost) :=
  match fetched with
  | .error e => (st, .error e)
  | .ok items =>
    ({ st with filterDate := now - st.backdateDuration },
     .ok (nikkiSelect st.locale st.filterDate ledger
            ((sortById (dedupByKey items)).reverse)))

/-- Extract the payload of a successful fetch (empty list on failure);
used only to state theorems about the returned candidates. -/
def exceptList {α : Type} : Except Unit (List α) → List α
  | .error _ => []
  | .ok l => l

/-! ## Per-item processing in the feed loop (`src/commands/start.rs`) -/

/-- The opengraph data extracted from the linked page: the `content`
attribute of `meta[property="og:description"]`, and the already-parsed URL
from `meta[property="og:image"]` when present and valid. -/
structure Page where
  ogDescription : Option String
  ogImage : Option String
deriving DecidableEq, Repr

/-- A `PostEmbed` (`src/bsky.rs`), URLs as strings. -/
structure PostEmbed where
  title : String
  description : String
  thumbnailUrl : Option String
  uri : String
deriving DecidableEq, Repr

/-- A `PostData` (`src/bsky.rs`), URLs as strings. -/
structure PostData where
  createdAt : Int
  text : String
  languages : List String
  embed : Option PostEmbed
deriving DecidableEq, Repr

/-- The `PostData` assembled in `StartCommand::run` for an entry whose first
link is `link`, from the scraped page data.  `strip` models the
HTML-fragment-to-plain-text extraction applied to the summary. -/
def assemblePost (strip : String → String) (languages : List String)
    (page : Page) (post : Entry) (link : Link) : PostData :=
  { createdAt := postCreatedAt post.published
    text := ((post.title.map FeedText.content).getD "New post") ++ " - " ++ link.href
    languages := languages
    embed := some
      { title := (post.title.map FeedText.content).getD link.href
        description :=
          ((post.summary.map (fun s => strip s.content)).or
              page.ogDescription).getD
            "This site has not provided a description"
        thumbnailUrl := page.ogImage
        uri := link.href } }

/-- What the feed loop does with one fetched entry before publishing. -/
inductive ItemStep where
  /-- The entry has no links: logged and skipped. -/
  | skipNoLink
  /-- `reqwest::get(&post_link.href)` failed: logged with "it will be
  retried next interval" and skipped via `continue`. -/
  | skipEnrichFail
  /-- The page data was obtained and the post was assembled. -/
  | published (p : PostData)
deriving DecidableEq, Repr

/-- The per-entry branch structure of the feed loop in `StartCommand::run`:
no first link → skip; page fetch (`enrich`) failed → skip with `continue`;
otherwise assemble the post from the page data. -/
def processEntry (strip : String → String) (languages : List String)
    (enrich : Except Unit Page) (post : Entry) : ItemStep :=
  match post.links.head? with
  | none => .skipNoLink
  | some link =>
    match enrich with
    | .error _ => .skipEnrichFail
    | .ok page => .published (assemblePost strip languages page post link)

/-- The url stored by `database.add_posted_url(&post.links.first().unwrap().href...)`
right after a successful publish. -/
def recordedUrl (post : Entry) : Option String :=
  post.links.head?.map Link.href

/-! ## One posting cycle (`src/commands/start.rs`, publish/record loop) -/

/-- The outcome of running one candidate through the loop body. -/
inductive Outcome where
  /-- The page fetch failed: the candidate is skipped (`continue`). -/
  | enrichFail
  /-- `bsky_handler.post` succeeded: the url is then recorded. -/
  | publishOk
  /-- `bsky_handler.post` failed: the `.unwrap()` aborts the loop. -/
  | publishFail
deriving DecidableEq, Repr

/-- A fetched candidate: its canonical (first-link) url and what happens
when the loop body runs it. -/
structure Candidate where
  url : String
  outcome : Outcome
deriving DecidableEq, Repr

/-- One posting cycle over the fetched candidates, in order: a skipped
candidate records nothing, a successful publish appends the url to the
ledger, a failed publish stops the loop at once reporting failure (`true`
means the cycle completed). -/
def runCycle (ledger : Ledger) : List Candidate → Ledger × Bool
  | [] => (ledger, true)
  | c :: rest =>
    match c.outcome with
    | .enrichFail => runCycle ledger rest
    | .publishOk => runCycle (ledger ++ [c.url]) rest
    | .publishFail => (ledger, false)

/-- The urls of the candidates that publish successfully, in order. -/
def successUrls (cs : List Candidate) : List String :=
  (cs.filter fun c =>
    match c.outcome with
    | Outcome.publishOk => true
    | _ => false).map Candidate.url

/-! ## Concrete inputs used in scenario theorems and witnesses -/

/-- The news items of the C1 scenario: ids `[5, 3, 5]`, all publish times
after the cutoff. -/
def c1Items : List NikkiNewsDataInner :=
  [⟨5, "Article five", 0, 10, "cover5", "alpha"⟩,
   ⟨3, "Article three", 0, 20, "cover3", "beta"⟩,
   ⟨5, "Article five again", 0, 30, "cover5b", "gamma"⟩]

/-- A concrete RSS entry with one link, a title and no summary. -/
def rssEntryW : Entry :=
  { title := some ⟨"T"⟩, published := some 10, summary := none,
    links := [⟨"https://example.com/p1"⟩] }

/-! ## Theorems -/

/-- C1: evaluating the fetcher at the scenario input `[{id:5},{id:3},{id:5}]`
(cutoff `0` older than all publish times, empty ledger).  `dedup_by_key`
removes only CONSECUTIVE duplicates and runs BEFORE the sort, so the
duplicate id 5 survives: the fetch returns THREE posts with urls for ids
`[5, 5, 3]`, not the two posts `[5, 3]` the spec describes. -/
theorem nikkiFetch_duplicate_id_scenario :
    (exceptList (nikkiFetchUnposted ⟨0, 1, "en"⟩ [] (.ok c1Items) 100).2).map
        NikkiNewsPost.url
      = [makeNewsLink "en" 5, makeNewsLink "en" 5, makeNewsLink "en" 3] ∧
    (exceptList (nikkiFetchUnposted ⟨0, 1, "en"⟩ [] (.ok c1Items) 100).2).length
      = 3 := by
  constructor <;> rfl

/-- If an entry passes the RSS keep-filter and has a first link, that link's
href is not in the ledger. -/
theorem rssKeep_not_posted {filterDate : Int} {ledger : Ledger} {item : Entry}
    {l : Link} (hk : rssKeep filterDate ledger item = true)
    (hl : item.links.head? = some l) : hasPostedUrl ledger l.href = false := by
  unfold rssKeep at hk
  cases hpub : item.published with
  | none => rw [hpub] at hk; exact absurd hk (by simp)
  | some pubDate =>
    rw [hpub, hl] at hk
    by_cases hle : pubDate ≤ filterDate
    · simp [hle] at hk
    · simp [hle] at hk
      simp [hk]

/-- Every post produced by the fetcher's selection loop has a url that is
not in the ledger. -/
theorem nikkiSelect_mem_not_posted {locale : String} {filterDate : Int}
    {ledger : Ledger} {p : NikkiNewsPost} :
    ∀ {items : List NikkiNewsDataInner},
      p ∈ nikkiSelect locale filterDate ledger items →
      hasPostedUrl ledger p.url = false := by
  intro items
  induction items with
  | nil => intro h; exact absurd h (by simp [nikkiSelect])
  | cons item rest ih =>
    intro h
    unfold nikkiSelect at h
    by_cases hle : item.publishTime ≤ filterDate
    · simp only [hle, if_true] at h; exact ih h
    · simp only [hle, if_false] at h
      by_cases hpost : hasPostedUrl ledger (makeNewsLink locale item.id) = true
      · simp only [hpost, if_true] at h; exact ih h
      · simp only [hpost, if_false] at h
        rcases List.mem_cons.mp h with heq | hmem
        · rw [heq]
          exact Bool.eq_false_iff.mpr hpost
        · exact ih hmem

/-- A url whose `has_posted_url` check is false differs from every ledger
member. -/
theorem not_posted_ne {ledger : Ledger} {x url : String}
    (hx : hasPostedUrl ledger x = false) (hmem : url ∈ ledger) : x ≠ url := by
  intro heq
  subst heq
  unfold hasPostedUrl at hx
  simp at hx
  exact hx hmem

/-- C2: for every url already present in the ledger, neither source's
`fetch_unposted` ever returns a candidate whose canonical link equals that
url — for any state, any fetch outcome, and any current time.  For the RSS
source the canonical link is the entry's first link; for the timed-API
source it is the url constructed from the item id. -/
theorem fetch_never_returns_posted (url : String) (ledger : Ledger)
    (hmem : url ∈ ledger) :
    (∀ (st : RssState) (fetched : Except Unit (List Entry)) (now : Int)
       (e : Entry) (l : Link),
        e ∈ exceptList (rssFetchUnposted st ledger fetched now).2 →
        e.links.head? = some l → l.href ≠ url) ∧
    (∀ (st : NikkiState) (fetched : Except Unit (List NikkiNewsDataInner))
       (now : Int) (p : NikkiNewsPost),
        p ∈ exceptList (nikkiFetchUnposted st ledger fetched now).2 →
        p.url ≠ url) := by
  constructor
  · intro st fetched now e l he hl
    cases fetched with
    | error err => exact absurd he (by simp [rssFetchUnposted, exceptList])
    | ok entries =>
      simp only [rssFetchUnposted, exceptList] at he
      exact not_posted_ne (rssKeep_not_posted (List.of_mem_filter he) hl) hmem
  · intro st fetched now p hp
    cases fetched with
    | error err => exact absurd hp (by simp [nikkiFetchUnposted, exceptList])
    | ok items =>
      simp only [nikkiFetchUnposted, exceptList] at hp
      exact not_posted_ne (nikkiSelect_mem_not_posted hp) hmem

/-- C2 witness: with ledger `["u"]`, the concrete entry `rssEntryW` is
returned by the RSS fetch and its first link differs from the posted url
`"u"`. -/
theorem fetch_never_returns_posted_witness :
    ("u" ∈ (["u"] : Ledger)) ∧
    rssEntryW ∈
      exceptList (rssFetchUnposted ⟨0, 1⟩ ["u"] (.ok [rssEntryW]) 100).2 ∧
    (Link.mk "https://example.com/p1").href ≠ "u" := by
  refine ⟨by decide, by decide, ?_⟩
  exact (fetch_never_returns_posted "u" ["u"] (by decide)).1
    ⟨0, 1⟩ (.ok [rssEntryW]) 100 rssEntryW ⟨"https://example.com/p1"⟩
    (by decide) rfl

/-- C4: for both sources, a failed fetch (network or parse error) leaves the
handler state — in particular the cutoff `filter_date` — unchanged, while a
successful fetch sets the cutoff to `now` minus the backdate duration
(independently of the previous cutoff) before returning the result. -/
theorem fetch_cutoff_update :
    (∀ (st : RssState) (ledger : Ledger) (e : Unit) (now : Int),
        (rssFetchUnposted st ledger (.error e) now).1 = st) ∧
    (∀ (st : RssState) (ledger : Ledger) (entries : List Entry) (now : Int),
        (rssFetchUnposted st ledger (.ok entries) now).1
          = { st with filterDate := now - st.feedBackdateDuration }) ∧
    (∀ (st : NikkiState) (ledger : Ledger) (e : Unit) (now : Int),
        (nikkiFetchUnposted st ledger (.error e) now).1 = st) ∧
    (∀ (st : NikkiState) (ledger : Ledger)
        (items : List NikkiNewsDataInner) (now : Int),
        (nikkiFetchUnposted st ledger (.ok items) now).1
          = { st with filterDate := now - st.backdateDuration }) :=
  ⟨fun _ _ _ _ => rfl, fun _ _ _ _ => rfl, fun _ _ _ _ => rfl,
   fun _ _ _ _ => rfl⟩

/-- C5: `get_all_post_urls` on an empty `posted_urls` table: collecting an
empty iterator of options yields `Some` of the empty vector, not `None`, so
`exportAll` returns the empty sequence and the export command prints an
empty string instead of failing with "There are no posts saved in the
database".  This contradicts the specified `None`-iff-empty behaviour (and
the code's own bail message, which can only fire when some stored url is
`NULL`). -/
theorem getAllPostUrls_empty_is_some :
    getAllPostUrls [] = some [] ∧
    exportPostsOutput [] = Except.ok "" ∧
    getAllPostUrls [none] = none := by
  refine ⟨rfl, ?_, rfl⟩
  simp [exportPostsOutput, getAllPostUrls, String.intercalate]

/-- C6 counterexample: the claim says that a post whose item has no publish
time gets `created_at` equal to the current time; but the code uses
`DateTime::default()` (the Unix epoch, `0`), so at current time `5` the
assembled `created_at` is not `5`. -/
theorem postCreatedAt_none_ne_now : ¬ postCreatedAt none = (5 : Int) := by
  decide

/-- C6 (amended): `created_at` equals the item's publish time when the item
has one, and equals the Unix-epoch default timestamp (`DateTime::default()`,
modelled as `0`) — not the current time — when the item has no publish
time. -/
theorem postCreatedAt_spec :
    (∀ t : Int, postCreatedAt (some t) = t) ∧ postCreatedAt none = 0 := by
  exact ⟨fun t => rfl, rfl⟩

/-- C9: `remove_old_stored_posts` leaves exactly `min 25000 count` entries,
the surviving entries are a suffix of the insertion-ordered table (i.e. the
most recently inserted ones); in particular on a table of 25010 rows it
leaves 25000 rows, dropping precisely the 10 oldest. -/
theorem removeOldStoredPosts_spec (ledger : Ledger) :
    (removeOldStoredPosts ledger).length = min 25000 ledger.length ∧
    (removeOldStoredPosts ledger).IsSuffix ledger ∧
    (ledger.length = 25010 → removeOldStoredPosts ledger = ledger.drop 10) := by
  refine ⟨?_, ?_, ?_⟩
  · simp only [removeOldStoredPosts, trimLedger, List.length_drop]
    omega
  · exact List.drop_suffix _ _
  · intro h
    simp [removeOldStoredPosts, trimLedger, h]

/-- C9 witness: instantiating the trim theorem on a concrete table of
25010 identical urls. -/
theorem removeOldStoredPosts_spec_witness :
    (removeOldStoredPosts (List.replicate 25010 "u")).length
      = min 25000 (List.replicate 25010 "u").length ∧
    removeOldStoredPosts (List.replicate 25010 "u")
      = (List.replicate 25010 "u").drop 10 := by
  have h := removeOldStoredPosts_spec (List.replicate 25010 "u")
  exact ⟨h.1, h.2.2 (List.length_replicate 25010 "u")⟩

/-- C3: within one cycle candidates are processed in order and a url is
recorded only after its publish succeeds: if the first publish failure hits
candidate `c` (everything before it either skipped or published), the final
ledger is the original ledger extended by exactly the urls of the candidates
before `c` that published successfully, nothing from `c` onwards is
recorded, and the cycle reports failure. -/
theorem runCycle_publish_fail (ledger : Ledger) (pre post : List Candidate)
    (c : Candidate) (hpre : ∀ x ∈ pre, x.outcome ≠ Outcome.publishFail)
    (hc : c.outcome = Outcome.publishFail) :
    runCycle ledger (pre ++ c :: post) = (ledger ++ successUrls pre, false) := by
  obtain ⟨u, o⟩ := c
  change o = Outcome.publishFail at hc
  subst hc
  induction pre generalizing ledger with
  | nil => simp [runCycle, successUrls]
  | cons x xs ih =>
    obtain ⟨xu, xo⟩ := x
    have hx : (Candidate.mk xu xo).outcome ≠ Outcome.publishFail :=
      hpre _ (List.mem_cons_self _ _)
    have hxs : ∀ y ∈ xs, y.outcome ≠ Outcome.publishFail :=
      fun y hy => hpre y (List.mem_cons_of_mem _ hy)
    cases xo with
    | enrichFail =>
      have hstep :
          runCycle ledger
              ((⟨xu, Outcome.enrichFail⟩ :: xs) ++ ⟨u, Outcome.publishFail⟩ :: post)
            = runCycle ledger (xs ++ ⟨u, Outcome.publishFail⟩ :: post) := rfl
      rw [hstep, ih ledger hxs]
      simp [successUrls, List.filter_cons]
    | publishOk =>
      have hstep :
          runCycle ledger
              ((⟨xu, Outcome.publishOk⟩ :: xs) ++ ⟨u, Outcome.publishFail⟩ :: post)
            = runCycle (ledger ++ [xu]) (xs ++ ⟨u, Outcome.publishFail⟩ :: post) :=
        rfl
      rw [hstep, ih (ledger ++ [xu]) hxs]
      simp [successUrls, List.filter_cons]
    | publishFail => exact absurd rfl hx

/-- C3 witness: three candidates where the second one's publish fails — the
first url is recorded, the second and third are not, and the cycle reports
failure. -/
theorem runCycle_publish_fail_witness :
    ((∀ x ∈ [Candidate.mk "u1" Outcome.publishOk],
        x.outcome ≠ Outcome.publishFail) ∧
      (Candidate.mk "u2" Outcome.publishFail).outcome = Outcome.publishFail) ∧
    runCycle ["old"]
        ([⟨"u1", Outcome.publishOk⟩] ++
          ⟨"u2", Outcome.publishFail⟩ :: [⟨"u3", Outcome.publishOk⟩])
      = (["old"] ++ successUrls [⟨"u1", Outcome.publishOk⟩], false) := by
  refine ⟨⟨by decide, rfl⟩, ?_⟩
  exact runCycle_publish_fail ["old"] [⟨"u1", Outcome.publishOk⟩]
    [⟨"u3", Outcome.publishOk⟩] ⟨"u2", Outcome.publishFail⟩ (by decide) rfl

/-- C7 counterexample: the claim says a failed enrichment lookup still
publishes the item with the fallback description; but the code `continue`s,
so on the concrete entry `rssEntryW` a failed page fetch yields the skip
step, not a published post. -/
theorem processEntry_enrich_fail_not_published :
    processEntry (fun s => s) ["en"] (Except.error ()) rssEntryW
        = ItemStep.skipEnrichFail ∧
    ItemStep.skipEnrichFail
      ≠ ItemStep.published
          (assemblePost (fun s => s) ["en"] ⟨none, none⟩ rssEntryW
            ⟨"https://example.com/p1"⟩) := by
  exact ⟨rfl, by decide⟩

/-- C7 (amended): on the RSS path a failed per-item enrichment lookup is
non-fatal to the loop but the item is SKIPPED for this cycle (`continue`,
"it will be retried next interval") — it is not assembled or published;
the fixed description fallback and absent thumbnail occur on the SUCCESS
path when the page yields no opengraph data and the entry has no summary. -/
theorem processEntry_enrich_spec (strip : String → String)
    (languages : List String) (post : Entry) (link : Link) (page : Page)
    (hl : post.links.head? = some link) (hsum : post.summary = none)
    (hdesc : page.ogDescription = none) (himg : page.ogImage = none) :
    processEntry strip languages (Except.error ()) post
        = ItemStep.skipEnrichFail ∧
    processEntry strip languages (Except.ok page) post
        = ItemStep.published (assemblePost strip languages page post link) ∧
    (assemblePost strip languages page post link).embed
      = some
          { title := (post.title.map FeedText.content).getD link.href
            description := "This site has not provided a description"
            thumbnailUrl := none
            uri := link.href } := by
  refine ⟨?_, ?_, ?_⟩
  · simp [processEntry, hl]
  · simp [processEntry, hl]
  · simp [assemblePost, hsum, hdesc, himg]

/-- C7 witness: instantiating the enrichment theorem on the concrete entry
`rssEntryW` (one link, no summary) and a page with no opengraph data. -/
theorem processEntry_enrich_spec_witness :
    (rssEntryW.links.head? = some ⟨"https://example.com/p1"⟩ ∧
      rssEntryW.summary = none ∧
      (Page.mk none none).ogDescription = none ∧
      (Page.mk none none).ogImage = none) ∧
    processEntry (fun s => s) ["en"] (Except.ok ⟨none, none⟩) rssEntryW
      = ItemStep.published
          (assemblePost (fun s => s) ["en"] ⟨none, none⟩ rssEntryW
            ⟨"https://example.com/p1"⟩) := by
  refine ⟨⟨rfl, rfl, rfl, rfl⟩, ?_⟩
  exact (processEntry_enrich_spec (fun s => s) ["en"] rssEntryW
    ⟨"https://example.com/p1"⟩ ⟨none, none⟩ rfl rfl rfl rfl).2.1

/-- C8: inserting a url that is not yet in the ledger through the
insert-posts command path succeeds, a second identical call is a no-op that
also succeeds (the membership guard prevents the duplicate INSERT from ever
firing), and the url ends up stored exactly once. -/
theorem insertPostsStep_idempotent (ledger : Ledger) (url : String)
    (hfresh : url ∉ ledger) :
    insertPostsStep ledger url = Except.ok (ledger ++ [url]) ∧
    insertPostsStep (ledger ++ [url]) url = Except.ok (ledger ++ [url]) ∧
    (ledger ++ [url]).count url = 1 := by
  have hc : hasPostedUrl ledger url = false := by
    unfold hasPostedUrl
    simpa using hfresh
  have hc2 : hasPostedUrl (ledger ++ [url]) url = true := by
    unfold hasPostedUrl
    simp
  refine ⟨?_, ?_, ?_⟩
  · simp [insertPostsStep, addPostedUrl, hc]
  · simp [insertPostsStep, hc2]
  · rw [List.count_append, List.count_eq_zero.mpr hfresh]
    simp [List.count_cons]

/-- C8 witness: inserting "u" twice into the empty ledger leaves exactly the
single entry `["u"]` and never surfaces an error. -/
theorem insertPostsStep_idempotent_witness :
    ("u" ∉ ([] : Ledger)) ∧
    insertPostsStep [] "u" = Except.ok ["u"] ∧
    insertPostsStep ["u"] "u" = Except.ok ["u"] ∧
    (["u"] : Ledger).count "u" = 1 := by
  have h := insertPostsStep_idempotent [] "u" (by decide)
  exact ⟨by decide, h.1, h.2.1, h.2.2⟩

/-- C10: every consumer of an entry's links reads only the FIRST link —
the fetch-time keep decision, the assembled post (text, embed title,
description, thumbnail and uri), and the url recorded after publishing are
all unchanged when the links after the first are replaced arbitrarily. -/
theorem only_first_link_used (filterDate : Int) (ledger : Ledger)
    (strip : String → String) (languages : List String)
    (enrich : Except Unit Page) (e : Entry) (l : Link)
    (rest rest' : List Link) :
    rssKeep filterDate ledger { e with links := l :: rest }
      = rssKeep filterDate ledger { e with links := l :: rest' } ∧
    processEntry strip languages enrich { e with links := l :: rest }
      = processEntry strip languages enrich { e with links := l :: rest' } ∧
    recordedUrl { e with links := l :: rest }
      = recordedUrl { e with links := l :: rest' } := by
  refine ⟨?_, ?_, ?_⟩
  · simp [rssKeep]
  · simp [processEntry, assemblePost]
  · simp [recordedUrl]

end Whimsky
